import Mathlib

/-!
Verification of the LoadCell length-prefixed streaming protocol and its
sample-processing pipeline, shallowly embedded from the C sources
(`server.c`, `c2.c`, `client.c`).  Bytes are modelled as `Nat` (values
`< 256` where produced by the encoders), doubles as exact rationals, and
the IEEE NaN sentinel as an explicit constructor of `FVal`.
-/

namespace LoadCell

/-- Big-endian 32-bit encoding of a natural number, as produced by
`htonl` when the four bytes are written to the wire in memory order
(`send_file_by_path` in `server.c`). -/
def toBE32 (n : Nat) : List Nat :=
  [n / 2 ^ 24 % 256, n / 2 ^ 16 % 256, n / 2 ^ 8 % 256, n % 256]

/-- Big-endian 64-bit encoding, built as the explicit high/low 32-bit
composition used by `htobe64_custom` in `server.c`. -/
def toBE64 (n : Nat) : List Nat :=
  toBE32 (n / 2 ^ 32) ++ toBE32 (n % 2 ^ 32)

/-- Big-endian byte-sequence decoding (`ntohl` / `be64toh_custom` on the
receiving side of `c2.c`). -/
def fromBE (bs : List Nat) : Nat :=
  bs.foldl (fun a b => a * 256 + b) 0

/-- `recv_all`-style exact read of `k` bytes from the front of a byte
stream: succeeds only when at least `k` bytes are available. -/
def readN (k : Nat) (s : List Nat) : Option (List Nat × List Nat) :=
  if k ≤ s.length then some (s.take k, s.drop k) else none

/-- Wire encoding of a `NamedDataFrame` exactly as `send_file_by_path`
(`server.c`) writes it: `u32be` name length, name bytes, `u64be` content
length, content bytes. -/
def encodeFrame (name : List Nat) (payload : List Nat) : List Nat :=
  toBE32 name.length ++ name ++ toBE64 payload.length ++ payload

/-- Frame-header decoding as performed by the `c2.c` receive loop
(`main`, Phase 2): read 4 length bytes, the name, then the 8 content
length bytes; returns the name, the announced content length, and the
remaining stream. -/
def decodeFrameHeader (s : List Nat) : Option (List Nat × Nat × List Nat) :=
  match readN 4 s with
  | none => none
  | some (lenBytes, s1) =>
    match readN (fromBE lenBytes) s1 with
    | none => none
    | some (name, s2) =>
      match readN 8 s2 with
      | none => none
      | some (clBytes, s3) => some (name, fromBE clBytes, s3)

theorem length_toBE32 (n : Nat) : (toBE32 n).length = 4 := rfl

theorem length_toBE64 (n : Nat) : (toBE64 n).length = 8 := rfl

theorem fromBE_toBE32 (n : Nat) (h : n < 2 ^ 32) : fromBE (toBE32 n) = n := by
  simp only [fromBE, toBE32, List.foldl]
  omega

theorem fromBE_toBE64 (n : Nat) (h : n < 2 ^ 64) : fromBE (toBE64 n) = n := by
  simp only [fromBE, toBE64, toBE32, List.foldl, List.append_eq, List.cons_append,
    List.nil_append]
  omega

theorem readN_exact (k : Nat) (a b : List Nat) (h : a.length = k) :
    readN k (a ++ b) = some (a, b) := by
  subst h
  simp [readN, List.take_left, List.drop_left]

/-- C1: encoding a `NamedDataFrame` (u32 big-endian name length, name
bytes, u64 big-endian content length, content bytes) and then decoding
its header reproduces the name exactly and reports a content length
equal to the payload's byte length. -/
theorem decodeFrameHeader_encodeFrame (name payload : List Nat)
    (hname : name.length < 2 ^ 32) (hpayload : payload.length < 2 ^ 64) :
    decodeFrameHeader (encodeFrame name payload) =
      some (name, payload.length, payload) := by
  unfold decodeFrameHeader encodeFrame
  rw [show toBE32 name.length ++ name ++ toBE64 payload.length ++ payload =
        toBE32 name.length ++ (name ++ (toBE64 payload.length ++ payload)) by
      simp [List.append_assoc]]
  rw [readN_exact 4 _ _ (length_toBE32 _)]
  simp only [fromBE_toBE32 _ hname]
  rw [readN_exact name.length _ _ rfl]
  simp only
  rw [readN_exact 8 _ _ (length_toBE64 _)]
  simp only [fromBE_toBE64 _ hpayload]

theorem decodeFrameHeader_encodeFrame_witness :
    decodeFrameHeader (encodeFrame [97] [65, 66]) = some ([97], 2, [65, 66]) :=
  decodeFrameHeader_encodeFrame [97] [65, 66] (by decide) (by decide)

/-!
### Reliable reader (`recv_all` in `c2.c`, `recvall` in `client.c`)

The byte stream is modelled as a list of chunks: each call to `recv`
delivers up to the requested number of bytes from the front chunk (a
partial delivery leaves the remainder of the chunk at the front), and an
exhausted stream (or an empty chunk, standing for `recv` returning `<= 0`)
means EOF/error.  `recv_all` loops until the full request is accumulated,
returning `none` (the `<= 0` return of the C code) on any failure, never
a partial buffer.
-/

/-- `recv_all` (`c2.c`) / `recvall` (`client.c`): accumulate exactly `n`
bytes from the chunked stream, or fail without returning a partial
result. -/
def recv_all (n : Nat) (chunks : List (List Nat)) :
    Option (List Nat × List (List Nat)) :=
  if _h : n = 0 then some ([], chunks)
  else
    match chunks with
    | [] => none
    | [] :: _ => none
    | (b :: c) :: cs =>
      match recv_all (n - ((b :: c).take n).length)
          (if ((b :: c).drop n).isEmpty then cs else (b :: c).drop n :: cs) with
      | none => none
      | some (bs, rem) => some ((b :: c).take n ++ bs, rem)
termination_by n
decreasing_by
  have h1 : ((b :: c).take n).length = min n (b :: c).length :=
    List.length_take n (b :: c)
  simp only [List.length_cons] at h1
  omega

theorem recv_all_complete (n : Nat) (chunks : List (List Nat))
    (hne : ∀ c ∈ chunks, c ≠ []) (hlen : chunks.flatten.length = n) :
    recv_all n chunks = some (chunks.flatten, []) := by
  induction n using Nat.strong_induction_on generalizing chunks with
  | _ n ih =>
    match chunks with
    | [] =>
      simp only [List.flatten_nil, List.length_nil] at hlen
      subst hlen
      rw [recv_all]
      rfl
    | [] :: cs => exact absurd rfl (hne [] (by simp))
    | (b :: c) :: cs =>
      have hjlen : c.length + 1 + cs.flatten.length = n := by
        simp only [List.flatten_cons, List.length_append, List.length_cons] at hlen
        omega
      have hn : n ≠ 0 := by omega
      have hble : (b :: c).length ≤ n := by
        simp only [List.length_cons]
        omega
      have hlef0 : (b :: c).drop n = [] := List.drop_eq_nil_iff.mpr hble
      have hdall : (b :: c).take n = b :: c := List.take_of_length_le hble
      rw [recv_all, dif_neg hn]
      have hrec : recv_all (n - (c.length + 1)) cs =
          some (cs.flatten, []) := by
        apply ih
        · omega
        · exact fun x hx => hne x (List.mem_cons_of_mem _ hx)
        · omega
      simp [hlef0, hdall, hrec, List.flatten_cons]

theorem recv_all_short (n : Nat) (chunks : List (List Nat))
    (hlen : chunks.flatten.length < n) :
    recv_all n chunks = none := by
  induction n using Nat.strong_induction_on generalizing chunks with
  | _ n ih =>
    have hn : n ≠ 0 := by omega
    match chunks with
    | [] => rw [recv_all, dif_neg hn]
    | [] :: cs => rw [recv_all, dif_neg hn]
    | (b :: c) :: cs =>
      have hjlen : c.length + 1 + cs.flatten.length < n := by
        simp only [List.flatten_cons, List.length_append, List.length_cons] at hlen
        omega
      have hble : (b :: c).length ≤ n := by
        simp only [List.length_cons]
        omega
      have hlef0 : (b :: c).drop n = [] := List.drop_eq_nil_iff.mpr hble
      have hdall : (b :: c).take n = b :: c := List.take_of_length_le hble
      rw [recv_all, dif_neg hn]
      have hrec : recv_all (n - (c.length + 1)) cs = none := by
        apply ih
        · omega
        · omega
      simp [hlef0, hdall, hrec]

/-- C2: `recv_all` over a stream delivering its bytes in arbitrarily many
partial chunks returns exactly the `n` requested bytes, unchanged and in
order, when the stream supplies exactly `n` bytes; when the stream ends
(EOF/error) before `n` bytes are available it returns a failure value and
never a partial result. -/
theorem recv_all_exact_or_fail (n : Nat) (chunks : List (List Nat)) :
    ((∀ c ∈ chunks, c ≠ []) → chunks.flatten.length = n →
      recv_all n chunks = some (chunks.flatten, [])) ∧
    (chunks.flatten.length < n → recv_all n chunks = none) :=
  ⟨recv_all_complete n chunks, recv_all_short n chunks⟩

theorem recv_all_exact_or_fail_witness :
    recv_all 5 [[10, 11], [12], [13, 14]] = some ([10, 11, 12, 13, 14], []) ∧
    recv_all 4 [[10, 11], [12]] = none := by
  constructor
  · exact (recv_all_exact_or_fail 5 [[10, 11], [12], [13, 14]]).1
      (by decide) (by decide)
  · exact (recv_all_exact_or_fail 4 [[10, 11], [12]]).2 (by decide)

/-!
### Control sentinels and the consumers' frame-reading loops

`c2.c` reads the 8-byte content length unconditionally before testing the
name against the sentinel vocabulary; `client.c` tests
`END_OF_TRANSMISSION` before that read and the remaining sentinels after
the name, reading the dummy content length only for the latter.
-/

def eotName : List Char := "END_OF_TRANSMISSION".toList

def nfsName : List Char := "NO_FILE_SELECTED".toList

def nfifName : List Char := "NO_FILES_IN_FOLDER".toList

def nffPat : List Char := "NO_FILE_FOUND:".toList

def prefMatch : List Char → List Char → Bool
  | [], _ => true
  | _ :: _, [] => false
  | p :: ps, c :: cs => p == c && prefMatch ps cs

/-- `strstr`: the first suffix of `s` beginning with `pat`, or `none`
when `pat` does not occur in `s`. -/
def strstrDrop (pat : List Char) (s : List Char) : Option (List Char) :=
  if prefMatch pat s then some s
  else
    match s with
    | [] => none
    | _ :: rest => strstrDrop pat rest

def hasSub (pat s : List Char) : Bool := (strstrDrop pat s).isSome

/-- The control-message test of `c2.c` (`main`, lines 163-166): exact
match on the three fixed sentinels, `strstr` containment for
`NO_FILE_FOUND:`. -/
def isC2Control (name : List Char) : Bool :=
  name == eotName || hasSub nffPat name || name == nfsName || name == nfifName

inductive FrameTailResult where
  | stop : List Nat → FrameTailResult
  | content : Nat → List Nat → FrameTailResult
  | connLost : FrameTailResult
deriving DecidableEq

/-- The `c2.c` receive loop after the frame name has been read: the
8 content-length bytes are always consumed first, then control names
break the loop. -/
def c2FrameTail (name : List Char) (s : List Nat) : FrameTailResult :=
  match readN 8 s with
  | none => .connLost
  | some (lenBytes, s1) =>
    if isC2Control name then .stop s1 else .content (fromBE lenBytes) s1

/-- The `client.c` network thread after the frame name has been read:
`END_OF_TRANSMISSION` breaks immediately, the other server-message names
consume the 8 dummy content-length bytes before breaking, and data names
proceed with the decoded content length. -/
def clientFrameTail (name : List Char) (s : List Nat) : FrameTailResult :=
  if name == eotName then .stop s
  else if hasSub nffPat name || name == nfsName || name == nfifName then
    match readN 8 s with
    | none => .connLost
    | some (_, s1) => .stop s1
  else
    match readN 8 s with
    | none => .connLost
    | some (lenBytes, s1) => .content (fromBE lenBytes) s1

/-- C3 counterexample: on an `END_OF_TRANSMISSION` frame the `client.c`
consumer stops without consuming the mandatory 8-byte content-length
field — the 8 bytes are still in the stream, so the result is not
`stop []` as the claim requires. -/
theorem clientFrameTail_eot_skips_length :
    clientFrameTail eotName (List.replicate 8 0) =
      FrameTailResult.stop (List.replicate 8 0) ∧
    clientFrameTail eotName (List.replicate 8 0) ≠
      FrameTailResult.stop [] := by
  constructor
  · rfl
  · decide

/-- C3 (amended): both consumers stop the frame-reading loop on every
sentinel name; `c2.c` always consumes the 8-byte content-length field
first, and `client.c` does so for `NO_FILE_SELECTED`,
`NO_FILES_IN_FOLDER` and `NO_FILE_FOUND:`-containing names, but stops
without consuming it on `END_OF_TRANSMISSION`. -/
theorem sentinel_stops_loop (name : List Char) (lb rest : List Nat)
    (hlb : lb.length = 8) :
    (isC2Control name = true →
      c2FrameTail name (lb ++ rest) = FrameTailResult.stop rest) ∧
    ((hasSub nffPat name || name == nfsName || name == nfifName) = true →
      clientFrameTail name (lb ++ rest) = FrameTailResult.stop rest) ∧
    (name = eotName →
      clientFrameTail name (lb ++ rest) = FrameTailResult.stop (lb ++ rest)) := by
  refine ⟨fun hctl => ?_, fun hsent => ?_, fun heot => ?_⟩
  · rw [c2FrameTail, readN_exact 8 lb rest hlb]
    simp only [hctl, if_true]
  · have hne : (name == eotName) = false := by
      rcases Bool.or_eq_true_iff.mp hsent with h | h
      · rcases Bool.or_eq_true_iff.mp h with h | h
        · by_contra hcon
          have : name = eotName := by
            have := Bool.of_not_eq_false hcon
            exact beq_iff_eq.mp this
          rw [this] at h
          exact absurd h (by decide)
        · have : name = nfsName := beq_iff_eq.mp h
          rw [this]
          decide
      · have : name = nfifName := beq_iff_eq.mp h
        rw [this]
        decide
    rw [clientFrameTail, hne]
    simp only [Bool.false_eq_true, if_false, hsent, if_true,
      readN_exact 8 lb rest hlb]
  · rw [clientFrameTail, heot]
    simp

theorem sentinel_stops_loop_witness :
    c2FrameTail nfsName ([1, 2, 3, 4, 5, 6, 7, 8] ++ [9]) =
      FrameTailResult.stop [9] ∧
    clientFrameTail nfsName ([1, 2, 3, 4, 5, 6, 7, 8] ++ [9]) =
      FrameTailResult.stop [9] ∧
    clientFrameTail eotName ([1, 2, 3, 4, 5, 6, 7, 8] ++ [9]) =
      FrameTailResult.stop ([1, 2, 3, 4, 5, 6, 7, 8] ++ [9]) := by
  obtain ⟨h1, h2, h3⟩ :=
    sentinel_stops_loop nfsName [1, 2, 3, 4, 5, 6, 7, 8] [9] (by decide)
  obtain ⟨_, _, h6⟩ :=
    sentinel_stops_loop eotName [1, 2, 3, 4, 5, 6, 7, 8] [9] (by decide)
  exact ⟨h1 (by decide), h2 (by decide), h6 rfl⟩

/-!
### Circular buffer (`client.c`, `init_circular_buffer` /
`append_circular_buffer` / `get_circular_buffer_snapshot`)

The buffer's backing array is a fixed-size list; `append` writes at
`tail`, advances `tail` modulo the capacity, and either grows `count` or
advances `head` (overwriting the oldest element) once full.  The
snapshot only reads the buffer and returns a fresh copy together with
the untouched state.
-/

structure CircularBuffer (α : Type) where
  data : List α
  head : Nat
  tail : Nat
  count : Nat
  max_size : Nat
deriving DecidableEq

def init_circular_buffer (α : Type) [Inhabited α] (m : Nat) : CircularBuffer α :=
  ⟨List.replicate m default, 0, 0, 0, m⟩

def append_circular_buffer {α : Type} (cb : CircularBuffer α) (v : α) :
    CircularBuffer α :=
  if cb.count < cb.max_size then
    { cb with data := cb.data.set cb.tail v,
              tail := (cb.tail + 1) % cb.max_size,
              count := cb.count + 1 }
  else
    { cb with data := cb.data.set cb.tail v,
              tail := (cb.tail + 1) % cb.max_size,
              head := (cb.head + 1) % cb.max_size }

/-- The snapshot copies `count` elements oldest-first (one `memcpy` when
contiguous, two when the live region wraps) and leaves the buffer state
untouched (the C function only reads `*cb`). -/
def get_circular_buffer_snapshot {α : Type} (cb : CircularBuffer α) :
    List α × CircularBuffer α :=
  (if cb.count = 0 then []
   else if cb.head < cb.tail then (cb.data.drop cb.head).take cb.count
   else (cb.data.drop cb.head).take (cb.max_size - cb.head) ++
     cb.data.take cb.tail,
   cb)

def appendAll {α : Type} (cb : CircularBuffer α) (xs : List α) :
    CircularBuffer α :=
  xs.foldl append_circular_buffer cb

/-- The deque the buffer refines: push appends, dropping the oldest
element when the capacity is reached. -/
def modelPush {α : Type} (m : Nat) (q : List α) (v : α) : List α :=
  if q.length < m then q ++ [v] else q.drop 1 ++ [v]

/-- Representation invariant tying a buffer state to the deque holding
its live elements oldest-first. -/
def BufInv {α : Type} (cb : CircularBuffer α) (q : List α) : Prop :=
  cb.data.length = cb.max_size ∧
  cb.count = q.length ∧
  q.length ≤ cb.max_size ∧
  cb.head < cb.max_size ∧
  cb.tail = (cb.head + q.length) % cb.max_size ∧
  ∀ i, i < q.length → cb.data[(cb.head + i) % cb.max_size]? = q[i]?

theorem add_mod_ne (a i j m : Nat) (hij : i < j) (hjm : j - i < m) :
    (a + i) % m ≠ (a + j) % m := by
  intro h
  have hmod : i ≡ j [MOD m] := Nat.ModEq.add_left_cancel' a h
  have hdvd : m ∣ j - i := (Nat.modEq_iff_dvd' (Nat.le_of_lt hij)).mp hmod
  have := Nat.le_of_dvd (by omega) hdvd
  omega

theorem mod_eq_sub_of (a m : Nat) (h1 : m ≤ a) (h2 : a - m < m) :
    a % m = a - m := by
  rw [Nat.mod_eq_sub_mod h1]
  exact Nat.mod_eq_of_lt h2

theorem bufInv_init (α : Type) [Inhabited α] (m : Nat) (hm : 0 < m) :
    BufInv (init_circular_buffer α m) [] := by
  refine ⟨by simp [init_circular_buffer], rfl, by simp, hm,
    by simp [init_circular_buffer], fun i hi => absurd hi (by simp)⟩

theorem bufInv_append {α : Type} {cb : CircularBuffer α} {q : List α} (v : α)
    (h : BufInv cb q) :
    BufInv (append_circular_buffer cb v) (modelPush cb.max_size q v) := by
  obtain ⟨hdat, hcnt, hnm, hhd, htl, helem⟩ := h
  have hm : 0 < cb.max_size := Nat.lt_of_le_of_lt (Nat.zero_le _) hhd
  have htlm : cb.tail < cb.max_size := htl ▸ Nat.mod_lt _ hm
  by_cases hlt : q.length < cb.max_size
  · -- not yet full: count grows, head stays
    have hbranch : cb.count < cb.max_size := by omega
    rw [append_circular_buffer, if_pos hbranch, modelPush, if_pos hlt]
    refine ⟨?_, ?_, ?_, ?_, ?_, ?_⟩
    · show (cb.data.set cb.tail v).length = cb.max_size
      rw [List.length_set]
      exact hdat
    · show cb.count + 1 = (q ++ [v]).length
      simp [hcnt]
    · show (q ++ [v]).length ≤ cb.max_size
      simp only [List.length_append, List.length_singleton]
      omega
    · exact hhd
    · show (cb.tail + 1) % cb.max_size =
        (cb.head + (q ++ [v]).length) % cb.max_size
      rw [List.length_append, List.length_singleton, htl, Nat.mod_add_mod,
        Nat.add_assoc]
    · intro i hi
      show (cb.data.set cb.tail v)[(cb.head + i) % cb.max_size]? = (q ++ [v])[i]?
      simp only [List.length_append, List.length_singleton] at hi
      rcases Nat.lt_or_ge i q.length with hiq | hiq
      · have hne : cb.tail ≠ (cb.head + i) % cb.max_size := by
          rw [htl]
          exact (add_mod_ne cb.head i q.length cb.max_size hiq (by omega)).symm
        rw [List.getElem?_set_ne hne, helem i hiq,
          List.getElem?_append_left hiq]
      · have hieq : i = q.length := by omega
        subst hieq
        rw [htl.symm, List.getElem?_set_self (by omega),
          List.getElem?_concat_length]
  · -- full: head advances, oldest element is overwritten
    have hq : q.length = cb.max_size := by omega
    have hbranch : ¬ cb.count < cb.max_size := by omega
    rw [append_circular_buffer, if_neg hbranch, modelPush, if_neg hlt]
    have hql : (q.drop 1 ++ [v]).length = cb.max_size := by
      simp only [List.length_append, List.length_drop, List.length_singleton]
      omega
    have hheadtl : cb.tail = cb.head := by
      rw [htl, hq, Nat.add_mod_right]
      exact Nat.mod_eq_of_lt hhd
    refine ⟨?_, ?_, ?_, ?_, ?_, ?_⟩
    · show (cb.data.set cb.tail v).length = cb.max_size
      rw [List.length_set]
      exact hdat
    · show cb.count = (q.drop 1 ++ [v]).length
      rw [hql, hcnt, hq]
    · show (q.drop 1 ++ [v]).length ≤ cb.max_size
      rw [hql]
    · show (cb.head + 1) % cb.max_size < cb.max_size
      exact Nat.mod_lt _ hm
    · show (cb.tail + 1) % cb.max_size =
        ((cb.head + 1) % cb.max_size + (q.drop 1 ++ [v]).length) % cb.max_size
      rw [hql, Nat.mod_add_mod, hheadtl]
      exact (Nat.add_mod_right (cb.head + 1) cb.max_size).symm
    · intro i hi
      show (cb.data.set cb.tail v)[((cb.head + 1) % cb.max_size + i) %
        cb.max_size]? = (q.drop 1 ++ [v])[i]?
      rw [hql] at hi
      have hidx : ((cb.head + 1) % cb.max_size + i) % cb.max_size =
          (cb.head + (1 + i)) % cb.max_size := by
        rw [Nat.mod_add_mod, Nat.add_assoc]
      have hhdmod : (cb.head + 0) % cb.max_size = cb.head := by
        rw [Nat.add_zero]
        exact Nat.mod_eq_of_lt hhd
      rcases Nat.lt_or_ge i (cb.max_size - 1) with hiq | hiq
      · have hne0 : (cb.head + 0) % cb.max_size ≠
            (cb.head + (1 + i)) % cb.max_size :=
          add_mod_ne cb.head 0 (1 + i) cb.max_size (by omega) (by omega)
        rw [hhdmod] at hne0
        have hne : cb.tail ≠ ((cb.head + 1) % cb.max_size + i) % cb.max_size := by
          rw [hidx, hheadtl]
          exact hne0
        rw [List.getElem?_set_ne hne, hidx, helem (1 + i) (by omega),
          List.getElem?_append_left
            (by rw [List.length_drop]; omega),
          List.getElem?_drop]
      · have hieq : i = cb.max_size - 1 := by omega
        subst hieq
        have hidx2 : ((cb.head + 1) % cb.max_size + (cb.max_size - 1)) %
            cb.max_size = cb.head := by
          rw [hidx, show 1 + (cb.max_size - 1) = cb.max_size by omega,
            Nat.add_mod_right]
          exact Nat.mod_eq_of_lt hhd
        rw [hidx2, ← hheadtl, List.getElem?_set_self (by omega)]
        have hdl : (q.drop 1).length = cb.max_size - 1 := by
          rw [List.length_drop]
          omega
        rw [← hdl, List.getElem?_concat_length]

theorem appendAll_max_size {α : Type} (cb : CircularBuffer α) (xs : List α) :
    (appendAll cb xs).max_size = cb.max_size := by
  induction xs generalizing cb with
  | nil => rfl
  | cons x xs ih =>
    show (appendAll (append_circular_buffer cb x) xs).max_size = _
    rw [ih]
    unfold append_circular_buffer
    split <;> rfl

theorem bufInv_appendAll {α : Type} {cb : CircularBuffer α} {q : List α}
    (xs : List α) (h : BufInv cb q) :
    BufInv (appendAll cb xs) (xs.foldl (modelPush cb.max_size) q) := by
  induction xs generalizing cb q with
  | nil => exact h
  | cons x xs ih =>
    have hstep := bufInv_append x h
    have hms : (append_circular_buffer cb x).max_size = cb.max_size := by
      unfold append_circular_buffer
      split <;> rfl
    show BufInv (appendAll (append_circular_buffer cb x) xs) _
    have := ih hstep
    rw [hms] at this
    exact this

theorem snapshot_eq_model {α : Type} {cb : CircularBuffer α} {q : List α}
    (h : BufInv cb q) :
    (get_circular_buffer_snapshot cb).1 = q := by
  obtain ⟨hdat, hcnt, hnm, hhd, htl, helem⟩ := h
  have hm : 0 < cb.max_size := Nat.lt_of_le_of_lt (Nat.zero_le _) hhd
  rw [get_circular_buffer_snapshot]
  by_cases h0 : cb.count = 0
  · have : q = [] := List.eq_nil_of_length_eq_zero (by omega)
    simp [h0, this]
  · simp only [h0, if_false]
    have hq0 : 0 < q.length := by omega
    by_cases hlt : cb.head < cb.tail
    · -- contiguous live region
      have hsum : cb.head + q.length < cb.max_size := by
        by_contra hge
        have : cb.tail = cb.head + q.length - cb.max_size := by
          rw [htl]
          exact mod_eq_sub_of _ _ (by omega) (by omega)
        omega
      have htleq : cb.tail = cb.head + q.length := by
        rw [htl]
        exact Nat.mod_eq_of_lt hsum
      rw [if_pos hlt]
      apply List.ext_getElem?_iff.mpr
      intro i
      rcases Nat.lt_or_ge i q.length with hi | hi
      · rw [List.getElem?_take_of_lt (by omega), List.getElem?_drop,
          ← helem i hi, Nat.mod_eq_of_lt (by omega)]
      · rw [List.getElem?_eq_none_iff.mpr, List.getElem?_eq_none_iff.mpr hi]
        simp [List.length_take, List.length_drop]
        omega
    · -- live region wraps around the end of the backing array
      have hgem : cb.max_size ≤ cb.head + q.length := by
        by_contra hge
        have : cb.tail = cb.head + q.length :=
          htl.trans (Nat.mod_eq_of_lt (by omega))
        omega
      have htleq : cb.tail = cb.head + q.length - cb.max_size := by
        rw [htl]
        exact mod_eq_sub_of _ _ (by omega) (by omega)
      rw [if_neg hlt]
      apply List.ext_getElem?_iff.mpr
      intro i
      have hA : ((cb.data.drop cb.head).take (cb.max_size - cb.head)).length =
          cb.max_size - cb.head := by
        simp [List.length_take, List.length_drop]
        omega
      rcases Nat.lt_or_ge i (cb.max_size - cb.head) with hi | hi
      · rw [List.getElem?_append_left (by omega),
          List.getElem?_take_of_lt (by omega), List.getElem?_drop,
          ← helem i (by omega), Nat.mod_eq_of_lt (by omega)]
      · rcases Nat.lt_or_ge i q.length with hi2 | hi2
        · rw [List.getElem?_append_right (by omega), hA,
            List.getElem?_take_of_lt (by omega), ← helem i hi2,
            mod_eq_sub_of _ _ (by omega) (by omega)]
          congr 1
          omega
        · rw [List.getElem?_eq_none_iff.mpr, List.getElem?_eq_none_iff.mpr hi2]
          simp [List.length_append, List.length_take, List.length_drop]
          omega

theorem foldl_modelPush {α : Type} (m : Nat) (hm : 0 < m) (xs q : List α)
    (hq : q.length ≤ m) :
    xs.foldl (modelPush m) q =
      (q ++ xs).drop ((q ++ xs).length - min (q ++ xs).length m) := by
  induction xs generalizing q with
  | nil =>
    simp only [List.foldl_nil, List.append_nil]
    rw [Nat.min_eq_left hq, Nat.sub_self, List.drop_zero]
  | cons x xs ih =>
    rw [List.foldl_cons]
    by_cases hlt : q.length < m
    · rw [modelPush, if_pos hlt,
        ih _ (by simp only [List.length_append, List.length_singleton]; omega)]
      simp only [List.append_assoc, List.singleton_append]
    · rcases q with _ | ⟨y, t⟩
      · simp only [List.length_nil] at hlt
        omega
      · have hq' : t.length + 1 = m := by
          simp only [List.length_cons] at hq hlt
          omega
        rw [modelPush, if_neg hlt,
          show (y :: t).drop 1 = t from rfl,
          ih (t ++ [x])
            (by simp only [List.length_append, List.length_singleton]; omega),
          show (t ++ [x]) ++ xs = t ++ x :: xs by
            rw [List.append_assoc, List.singleton_append]]
        rw [show (y :: t) ++ x :: xs = y :: (t ++ x :: xs) from rfl]
        have hL1 : (t ++ x :: xs).length = m + xs.length := by
          simp only [List.length_append, List.length_cons]
          omega
        have hL2 : (y :: (t ++ x :: xs)).length = m + xs.length + 1 := by
          simp only [List.length_cons]
          omega
        rw [hL1, hL2,
          show m + xs.length - min (m + xs.length) m = xs.length by omega,
          show m + xs.length + 1 - min (m + xs.length + 1) m = xs.length + 1 by
            omega,
          List.drop_succ_cons]

/-- C4: after appending `C + k` values (`k > 0`) to a circular buffer of
capacity `C`, the count is exactly `C`, the ordered snapshot equals the
last `C` appended values oldest-first, and taking the snapshot leaves
the buffer state unchanged. -/
theorem circular_buffer_overflow_snapshot {α : Type} [Inhabited α]
    (C k : Nat) (hC : 0 < C) (hk : 0 < k) (xs : List α)
    (hlen : xs.length = C + k) :
    (appendAll (init_circular_buffer α C) xs).count = C ∧
    (get_circular_buffer_snapshot (appendAll (init_circular_buffer α C) xs)).1 =
      xs.drop k ∧
    (get_circular_buffer_snapshot (appendAll (init_circular_buffer α C) xs)).2 =
      appendAll (init_circular_buffer α C) xs := by
  have hinv := bufInv_appendAll xs (bufInv_init α C hC)
  have hms : (init_circular_buffer α C).max_size = C := rfl
  rw [hms] at hinv
  have hmodel : xs.foldl (modelPush C) [] = xs.drop k := by
    rw [foldl_modelPush C hC xs [] (by simp), List.nil_append, hlen,
      show C + k - min (C + k) C = k by omega]
  rw [hmodel] at hinv
  obtain ⟨hdat, hcnt, hnm, hhd, htl, helem⟩ := hinv
  refine ⟨?_, ?_, rfl⟩
  · rw [hcnt, List.length_drop, hlen]
    omega
  · exact snapshot_eq_model ⟨hdat, hcnt, hnm, hhd, htl, helem⟩

theorem circular_buffer_overflow_snapshot_witness :
    (appendAll (init_circular_buffer Nat 3) [1, 2, 3, 4, 5]).count = 3 ∧
    (get_circular_buffer_snapshot
      (appendAll (init_circular_buffer Nat 3) [1, 2, 3, 4, 5])).1 =
      [1, 2, 3, 4, 5].drop 2 ∧
    (get_circular_buffer_snapshot
      (appendAll (init_circular_buffer Nat 3) [1, 2, 3, 4, 5])).2 =
      appendAll (init_circular_buffer Nat 3) [1, 2, 3, 4, 5] :=
  circular_buffer_overflow_snapshot 3 2 (by decide) (by decide) [1, 2, 3, 4, 5]
    (by decide)

/-- C10: after any sequence of `init` and `append` operations the buffer
satisfies `count ≤ max_size` and `tail = (head + count) % max_size`, and
the snapshot operation leaves `head`, `tail` and `count` unchanged (it
returns the state it was given). -/
theorem circular_buffer_structural_invariant {α : Type} [Inhabited α]
    (m : Nat) (hm : 0 < m) (xs : List α) :
    (appendAll (init_circular_buffer α m) xs).count ≤
      (appendAll (init_circular_buffer α m) xs).max_size ∧
    (appendAll (init_circular_buffer α m) xs).tail =
      ((appendAll (init_circular_buffer α m) xs).head +
        (appendAll (init_circular_buffer α m) xs).count) %
        (appendAll (init_circular_buffer α m) xs).max_size ∧
    (get_circular_buffer_snapshot (appendAll (init_circular_buffer α m) xs)).2 =
      appendAll (init_circular_buffer α m) xs := by
  obtain ⟨hdat, hcnt, hnm, hhd, htl, helem⟩ :=
    bufInv_appendAll xs (bufInv_init α m hm)
  refine ⟨?_, ?_, rfl⟩
  · rw [hcnt]
    exact hnm
  · rw [hcnt]
    exact htl

theorem circular_buffer_structural_invariant_witness :
    (appendAll (init_circular_buffer Nat 2) [5, 6, 7]).count ≤
      (appendAll (init_circular_buffer Nat 2) [5, 6, 7]).max_size ∧
    (appendAll (init_circular_buffer Nat 2) [5, 6, 7]).tail =
      ((appendAll (init_circular_buffer Nat 2) [5, 6, 7]).head +
        (appendAll (init_circular_buffer Nat 2) [5, 6, 7]).count) %
        (appendAll (init_circular_buffer Nat 2) [5, 6, 7]).max_size ∧
    (get_circular_buffer_snapshot
      (appendAll (init_circular_buffer Nat 2) [5, 6, 7])).2 =
      appendAll (init_circular_buffer Nat 2) [5, 6, 7] :=
  circular_buffer_structural_invariant 2 (by decide) [5, 6, 7]

/-!
### Producer/consumer queue (`client.c`, `network_thread_func`)

`data_queue` is a 10-slot array with `queue_head`, `queue_tail` and
`queue_count`; the network thread inserts only when `queue_count < 10`
and otherwise drops the batch, leaving every queue variable untouched.
-/

structure BatchQueue (α : Type) where
  slots : List (Option α)
  head : Nat
  tail : Nat
  count : Nat
deriving DecidableEq

/-- The enqueue attempt of `network_thread_func` (`client.c`, lines
458-484): insert at `tail` when `queue_count < 10`, otherwise report
failure and drop the batch. -/
def tryEnqueue {α : Type} (q : BatchQueue α) (b : α) : Bool × BatchQueue α :=
  if q.count < 10 then
    (true, ⟨q.slots.set q.tail (some b), q.head, (q.tail + 1) % 10, q.count + 1⟩)
  else
    (false, q)

/-- C5: attempting to enqueue onto a queue already holding its full
capacity of 10 batches fails and returns the queue completely unchanged
(same slots, head, tail and count, hence the same 10 batches in the same
FIFO order); `tryEnqueue` is a total function, so it never blocks. -/
theorem tryEnqueue_full_drops {α : Type} (q : BatchQueue α) (b : α)
    (hfull : q.count = 10) :
    tryEnqueue q b = (false, q) := by
  rw [tryEnqueue, if_neg (by omega)]

theorem tryEnqueue_full_drops_witness :
    tryEnqueue ⟨List.replicate 10 (some 0), 0, 0, 10⟩ (7 : Nat) =
      (false, ⟨List.replicate 10 (some 0), 0, 0, 10⟩) :=
  tryEnqueue_full_drops ⟨List.replicate 10 (some 0), 0, 0, 10⟩ 7 rfl

/-!
### Sample normalization and the DSP warm-up behaviour

Doubles are modelled as exact rationals plus an explicit `nan`
constructor; the only NaN-producing operation the claims exercise is the
zero-`SCALE_CAL` guard, and NaN propagates through subtraction.
-/

inductive FVal where
  | nan : FVal
  | num : ℚ → FVal
deriving DecidableEq

instance : Inhabited FVal := ⟨FVal.num 0⟩

/-- `ZERO_CAL` of `client.c` (0.01823035255075). -/
def CLIENT_ZERO_CAL : ℚ := 1823035255075 / 100000000000000

/-- `SCALE_CAL` of `client.c` (0.00000451794631). -/
def CLIENT_SCALE_CAL : ℚ := 451794631 / 100000000000000

/-- `ZERO_CAL` of `c2.c` (-0.0006981067708). -/
def C2_ZERO_CAL : ℚ := -6981067708 / 10000000000000

/-- `SCALE_CAL` of `c2.c` (0.00000452466566). -/
def C2_SCALE_CAL : ℚ := 452466566 / 100000000000000

/-- `ADC_MAX_VAL` (`0x80000000` as a double). -/
def ADC_MAX_VAL : ℚ := 2147483648

/-- `normalize_to_weights` (`client.c`): divide by `ADC_MAX_VAL`,
subtract `ZERO_CAL`, divide by `SCALE_CAL`; a zero `SCALE_CAL` yields
the `NAN` sentinel. -/
def normalize_to_weights (zeroCal scaleCal : ℚ) (values : List Int) :
    List FVal :=
  values.map fun (v : Int) =>
    if scaleCal ≠ 0 then
      FVal.num (((v : ℚ) / ADC_MAX_VAL - zeroCal) / scaleCal)
    else FVal.nan

/-- `normalize_to_weight` (`c2.c`): same formula, but a zero `SCALE_CAL`
returns `0.0` instead of NaN. -/
def normalize_to_weight (zeroCal scaleCal : ℚ) (adc : Int) : FVal :=
  if scaleCal = 0 then FVal.num 0
  else FVal.num (((adc : ℚ) / ADC_MAX_VAL - zeroCal) / scaleCal)

/-- C7 counterexample: with a zero `SCALE_CAL`, `c2.c`'s
`normalize_to_weight` yields the numeric placeholder `0.0`, not the NaN
sentinel the claim requires. -/
theorem normalize_to_weight_zero_scale_not_nan :
    normalize_to_weight C2_ZERO_CAL 0 0 = FVal.num 0 ∧
    normalize_to_weight C2_ZERO_CAL 0 0 ≠ FVal.nan := by
  constructor
  · rfl
  · decide

/-- C7 (amended): both normalizations compute
`(raw / 2^31 - ZERO_CAL) / SCALE_CAL` for a nonzero `SCALE_CAL`, and a
zero `SCALE_CAL` never crashes: `client.c` yields the NaN sentinel while
`c2.c` yields `0.0` instead. -/
theorem normalize_weight_formula (zeroCal scaleCal : ℚ) (values : List Int)
    (v : Int) (hs : scaleCal ≠ 0) :
    normalize_to_weights zeroCal scaleCal values =
      values.map (fun (x : Int) =>
        FVal.num (((x : ℚ) / 2 ^ 31 - zeroCal) / scaleCal)) ∧
    normalize_to_weight zeroCal scaleCal v =
      FVal.num (((v : ℚ) / 2 ^ 31 - zeroCal) / scaleCal) ∧
    normalize_to_weights zeroCal 0 values =
      values.map (fun (_ : Int) => FVal.nan) ∧
    normalize_to_weight zeroCal 0 v = FVal.num 0 := by
  have hadc : ADC_MAX_VAL = 2 ^ 31 := by norm_num [ADC_MAX_VAL]
  refine ⟨?_, ?_, ?_, ?_⟩
  · rw [normalize_to_weights, hadc]
    exact List.map_congr_left fun x _ => by rw [if_pos hs]
  · rw [normalize_to_weight, if_neg hs, hadc]
  · rw [normalize_to_weights]
    exact List.map_congr_left fun x _ => by
      rw [if_neg]
      simp
  · rw [normalize_to_weight, if_pos rfl]

theorem normalize_weight_formula_witness :
    normalize_to_weights CLIENT_ZERO_CAL CLIENT_SCALE_CAL [0] =
      [0].map (fun (x : Int) =>
        FVal.num (((x : ℚ) / 2 ^ 31 - CLIENT_ZERO_CAL) / CLIENT_SCALE_CAL)) ∧
    normalize_to_weight C2_ZERO_CAL C2_SCALE_CAL 0 =
      FVal.num (((0 : ℚ) / 2 ^ 31 - C2_ZERO_CAL) / C2_SCALE_CAL) ∧
    normalize_to_weights CLIENT_ZERO_CAL 0 [0] =
      [0].map (fun (_ : Int) => FVal.nan) ∧
    normalize_to_weight C2_ZERO_CAL 0 0 = FVal.num 0 := by
  have h1 := normalize_weight_formula CLIENT_ZERO_CAL CLIENT_SCALE_CAL [0] 0
    (by rw [CLIENT_SCALE_CAL]; norm_num)
  have h2 := normalize_weight_formula C2_ZERO_CAL C2_SCALE_CAL [0] 0
    (by rw [C2_SCALE_CAL]; norm_num)
  exact ⟨h1.1, h2.2.1, h1.2.2.1, h2.2.2.2⟩

def FIR_NUM_TAPS : Nat := 51

def FFT_WINDOW_SIZE : Nat := 256

/-- `min_dsp_samples` (`process_data_gui_callback`): the warm-up bound
for running the DSP stage. -/
def min_dsp_samples : Nat :=
  if FIR_NUM_TAPS > FFT_WINDOW_SIZE then FIR_NUM_TAPS else FFT_WINDOW_SIZE

def fvalSum (values : List FVal) : ℚ :=
  values.foldl (fun a v => match v with | FVal.nan => a | FVal.num q => a + q) 0

def nanCount (values : List FVal) : Nat :=
  (values.filter (fun v => v == FVal.nan)).length

def FVal.subQ : FVal → ℚ → FVal
  | FVal.nan, _ => FVal.nan
  | FVal.num q, r => FVal.num (q - r)

/-- `remove_dc_offset_temp` (`client.c`): `none` for an empty input
(the C function returns `NULL`), all-NaN output when every sample is
NaN, otherwise subtract the mean of the non-NaN samples. -/
def remove_dc_offset_temp (values : List FVal) : Option (List FVal) :=
  if values.length = 0 then none
  else if values.length - nanCount values = 0 then
    some (values.map (fun _ => FVal.nan))
  else
    some (values.map (fun v =>
      v.subQ (fvalSum values / ((values.length - nanCount values : Nat) : ℚ))))

/-- `fir_filter` (`client.c`): the shipped placeholder copies the input
and returns an impulse coefficient vector; empty input or a non-positive
sampling rate yields `NULL` outputs. -/
def fir_filter (values : List FVal) (samplingRate : ℚ) :
    Option (List FVal × List ℚ) :=
  if values.length = 0 ∨ samplingRate ≤ 0 then none
  else
    some (values, (List.replicate FIR_NUM_TAPS (0 : ℚ)).set (FIR_NUM_TAPS / 2) 1)

/-- One tick of `process_data_gui_callback` (`client.c`, lines 847-944),
restricted to the value appended to the filtered-plot buffer: the sample
is pushed into the DSP window, the raw weight is computed, the DSP stage
runs only once `min_dsp_samples` samples are available (its fallback on
any failure being the raw weight), and NaN is pushed exactly when the
window still holds fewer than `FIR_NUM_TAPS` samples. -/
def process_sample_filtered_append (dspBuf0 : CircularBuffer FVal)
    (adc : Int) (intervalMs : Int) : FVal :=
  let dspBuf := append_circular_buffer dspBuf0 (FVal.num (adc : ℚ))
  let rawWeight :=
    (normalize_to_weights CLIENT_ZERO_CAL CLIENT_SCALE_CAL [adc]).headD FVal.nan
  let samplingRate : ℚ := if 0 < intervalMs then 1000 / (intervalMs : ℚ) else 1
  let fwp :=
    if min_dsp_samples ≤ dspBuf.count then
      match remove_dc_offset_temp (get_circular_buffer_snapshot dspBuf).1 with
      | none => rawWeight
      | some dc =>
        match fir_filter dc samplingRate with
        | none => rawWeight
        | some (filtered, _) =>
          match filtered.getLast? with
          | none => rawWeight
          | some x => x
    else rawWeight
  if FIR_NUM_TAPS ≤ dspBuf.count then fwp else FVal.nan

/-- A DSP window buffer (capacity `DSP_BUFFER_SIZE = 500`) holding 99
samples. -/
def dsp99 : CircularBuffer FVal :=
  appendAll (init_circular_buffer FVal 500) (List.replicate 99 (FVal.num 1000))

set_option maxRecDepth 20000 in
/-- C6 counterexample: at the step where the DSP window reaches 100
samples — fewer than `max(FIR_NUM_TAPS, FFT_WINDOW_SIZE) = 256` — the
value appended to the filtered-plot buffer is the raw weight, not NaN. -/
theorem filtered_append_mid_warmup_not_nan :
    (append_circular_buffer dsp99 (FVal.num (1000 : Int))).count = 100 ∧
    100 < min_dsp_samples ∧
    process_sample_filtered_append dsp99 1000 20 =
      (normalize_to_weights CLIENT_ZERO_CAL CLIENT_SCALE_CAL
        [1000]).headD FVal.nan ∧
    process_sample_filtered_append dsp99 1000 20 ≠ FVal.nan := by
  have hcnt : (append_circular_buffer dsp99 (FVal.num (1000 : Int))).count =
      100 := by decide
  have hscale : CLIENT_SCALE_CAL ≠ 0 := by
    rw [CLIENT_SCALE_CAL]
    norm_num
  have hproc : process_sample_filtered_append dsp99 1000 20 =
      (normalize_to_weights CLIENT_ZERO_CAL CLIENT_SCALE_CAL
        [1000]).headD FVal.nan := by
    simp only [process_sample_filtered_append]
    rw [if_pos (by rw [hcnt]; decide), if_neg (by rw [hcnt]; decide)]
  refine ⟨hcnt, by decide, hproc, ?_⟩
  rw [hproc]
  simp only [normalize_to_weights, List.map_cons, List.map_nil,
    if_pos hscale, List.headD_cons]
  intro h
  exact FVal.noConfusion h

/-- C6 (amended): the filtered-plot buffer receives NaN exactly while
the DSP window holds fewer than `FIR_NUM_TAPS` (51) samples; for steps
where it holds at least `FIR_NUM_TAPS` but fewer than
`max(FIR_NUM_TAPS, FFT_WINDOW_SIZE)` samples the fallback raw weight is
appended instead. -/
theorem filtered_append_warmup (dspBuf0 : CircularBuffer FVal) (adc : Int)
    (intervalMs : Int) :
    ((append_circular_buffer dspBuf0 (FVal.num (adc : ℚ))).count <
        FIR_NUM_TAPS →
      process_sample_filtered_append dspBuf0 adc intervalMs = FVal.nan) ∧
    (FIR_NUM_TAPS ≤
        (append_circular_buffer dspBuf0 (FVal.num (adc : ℚ))).count →
      (append_circular_buffer dspBuf0 (FVal.num (adc : ℚ))).count <
        min_dsp_samples →
      process_sample_filtered_append dspBuf0 adc intervalMs =
        (normalize_to_weights CLIENT_ZERO_CAL CLIENT_SCALE_CAL
          [adc]).headD FVal.nan) := by
  constructor
  · intro h
    simp only [process_sample_filtered_append]
    rw [if_neg (by omega)]
  · intro h1 h2
    simp only [process_sample_filtered_append]
    rw [if_pos h1, if_neg (by omega)]

set_option maxRecDepth 20000 in
theorem filtered_append_warmup_witness :
    process_sample_filtered_append (init_circular_buffer FVal 500) 1000 20 =
      FVal.nan ∧
    process_sample_filtered_append dsp99 1000 20 =
      (normalize_to_weights CLIENT_ZERO_CAL CLIENT_SCALE_CAL
        [1000]).headD FVal.nan := by
  constructor
  · exact (filtered_append_warmup (init_circular_buffer FVal 500) 1000 20).1
      (by decide)
  · exact (filtered_append_warmup dsp99 1000 20).2 (by decide) (by decide)

/-!
### Overlong frame names (`client.c`, `network_thread_func` lines
396-403)

A received name length of 256 or more is clamped to 255 ("Truncating.")
and reception continues with the truncated name; no error path exists.
-/

/-- The `client.c` filename read: clamp the announced length to 255 when
it does not fit the 256-byte buffer, then read that many bytes. -/
def clientReadFilename (filename_length : Nat) (s : List Nat) :
    Option (List Nat × List Nat) :=
  readN (if 256 ≤ filename_length then 255 else filename_length) s

set_option maxRecDepth 20000 in
/-- C8 counterexample: a frame announcing a 300-byte name is not
rejected — `client.c` truncates the name to 255 bytes and continues
(leaving the remaining 45 name bytes unread in the stream), so decoding
does not fail. -/
theorem clientReadFilename_overlong_not_error :
    clientReadFilename 300 (List.replicate 300 0) =
      some (List.replicate 255 0, List.replicate 45 0) ∧
    clientReadFilename 300 (List.replicate 300 0) ≠ none := by
  refine ⟨by decide, by decide⟩

/-- C8 (amended): an overlong name (length ≥ 256) is silently truncated:
exactly 255 name bytes are consumed and processing continues with the
truncated name; no `ProtocolError`-style failure is raised. -/
theorem clientReadFilename_truncates (L : Nat) (s : List Nat)
    (hL : 256 ≤ L) (hs : 255 ≤ s.length) :
    clientReadFilename L s = some (s.take 255, s.drop 255) := by
  rw [clientReadFilename, if_pos hL, readN, if_pos (by omega)]

set_option maxRecDepth 20000 in
theorem clientReadFilename_truncates_witness :
    clientReadFilename 256 (List.replicate 255 7) =
      some ((List.replicate 255 7).take 255, (List.replicate 255 7).drop 255) :=
  clientReadFilename_truncates 256 (List.replicate 255 7) (by decide)
    (by decide)

/-!
### Config decoding (`c2.c`, `main` lines 118-130)

`c2.c` initialises `interval_ms = 20` and `mode = "interval"`, then uses
`strstr` to locate `"INTERVAL:"` and `"MODE:"` anywhere in the config
text and `sscanf` (`%d` / `%s`) to overwrite the defaults when the keys
parse; a missing key or a failed parse leaves the default in place.
-/

def intervalKey : List Char := "INTERVAL:".toList

def modeKey : List Char := "MODE:".toList

/-- The whitespace class of `isspace`, which both `%d` and `%s` skip and
`%s` stops at. -/
def isWS (c : Char) : Bool :=
  c = ' ' || c = '\t' || c = '\n' || c = '\r' || c = '\x0b' || c = '\x0c'

def digitChar (d : Nat) : Char :=
  if d = 0 then '0' else if d = 1 then '1' else if d = 2 then '2'
  else if d = 3 then '3' else if d = 4 then '4' else if d = 5 then '5'
  else if d = 6 then '6' else if d = 7 then '7' else if d = 8 then '8'
  else '9'

/-- Decimal digit string of a natural number (the `%d` rendering used by
`snprintf` on the producer side). -/
def natDigs (n : Nat) : List Char :=
  if n < 10 then [digitChar n]
  else natDigs (n / 10) ++ [digitChar (n % 10)]
termination_by n
decreasing_by omega

/-- Value accumulated by `sscanf` from a digit run. -/
def digsToNat (ds : List Char) : Nat :=
  ds.foldl (fun a c => a * 10 + (c.toNat - 48)) 0

/-- `%d` digit-run parse: fails when no digit is present (in which case
`sscanf` assigns nothing). -/
def parseDigits (s : List Char) : Option Nat :=
  if (s.takeWhile Char.isDigit).isEmpty then none
  else some (digsToNat (s.takeWhile Char.isDigit))

/-- `sscanf` `%d`: skip whitespace, optional sign, then a nonempty digit
run. -/
def parseIntFrom (s0 : List Char) : Option Int :=
  match s0.dropWhile isWS with
  | [] => none
  | c :: rest =>
    if c = '-' then (parseDigits rest).map (fun (n : Nat) => -(n : Int))
    else if c = '+' then (parseDigits rest).map (fun (n : Nat) => (n : Int))
    else (parseDigits (c :: rest)).map (fun (n : Nat) => (n : Int))

/-- `%d` rendering of a C `int`. -/
def intRepr (i : Int) : List Char :=
  if i < 0 then '-' :: natDigs i.natAbs else natDigs i.toNat

/-- The `c2.c` config parse: `strstr`-locate each key, `sscanf` from the
match, and keep the defaults `20` / `"interval"` when the key is absent
or its value fails to parse. -/
def c2_decode_config (s : List Char) : Int × List Char :=
  (match strstrDrop intervalKey s with
   | none => 20
   | some suf =>
     match parseIntFrom (suf.drop intervalKey.length) with
     | none => 20
     | some n => n,
   match strstrDrop modeKey s with
   | none => "interval".toList
   | some suf =>
     if (((suf.drop modeKey.length).dropWhile isWS).takeWhile
         (fun c => !(isWS c))).isEmpty then "interval".toList
     else ((suf.drop modeKey.length).dropWhile isWS).takeWhile
       (fun c => !(isWS c)))

/-- A well-formed config payload as the §6 wire format describes it:
newline-separated `KEY:VALUE` lines. -/
def mkConfig (i : Int) (mode : List Char) : List Char :=
  intervalKey ++ intRepr i ++ '\n' :: (modeKey ++ mode ++ ['\n'])

def digitChars : List Char :=
  ['0', '1', '2', '3', '4', '5', '6', '7', '8', '9']

theorem digitChar_mem (d : Nat) : digitChar d ∈ digitChars := by
  unfold digitChar
  split_ifs <;> decide

theorem digitChar_toNat (d : Nat) (h : d < 10) :
    (digitChar d).toNat = 48 + d := by
  interval_cases d <;> rfl

theorem mem_digitChars_props (c : Char) (h : c ∈ digitChars) :
    c.isDigit = true ∧ isWS c = false ∧ c ≠ 'M' ∧ c ≠ '-' ∧ c ≠ '+' := by
  fin_cases h <;> refine ⟨rfl, rfl, by decide, by decide, by decide⟩

theorem natDigs_mem (n : Nat) : ∀ c ∈ natDigs n, c ∈ digitChars := by
  induction n using Nat.strong_induction_on with
  | _ n ih =>
    intro c hc
    rw [natDigs] at hc
    by_cases h : n < 10
    · rw [if_pos h] at hc
      simp only [List.mem_singleton] at hc
      exact hc ▸ digitChar_mem n
    · rw [if_neg h] at hc
      rcases List.mem_append.mp hc with hc | hc
      · exact ih (n / 10) (by omega) c hc
      · simp only [List.mem_singleton] at hc
        exact hc ▸ digitChar_mem (n % 10)

theorem natDigs_ne_nil (n : Nat) : natDigs n ≠ [] := by
  rw [natDigs]
  by_cases h : n < 10
  · rw [if_pos h]
    exact List.cons_ne_nil _ _
  · rw [if_neg h]
    exact List.append_ne_nil_of_right_ne_nil _ (List.cons_ne_nil _ _)

theorem digsToNat_concat (a : List Char) (c : Char) :
    digsToNat (a ++ [c]) = digsToNat a * 10 + (c.toNat - 48) := by
  simp [digsToNat, List.foldl_append]

theorem digsToNat_natDigs (n : Nat) : digsToNat (natDigs n) = n := by
  induction n using Nat.strong_induction_on with
  | _ n ih =>
    rw [natDigs]
    by_cases h : n < 10
    · rw [if_pos h]
      show 0 * 10 + ((digitChar n).toNat - 48) = n
      rw [digitChar_toNat n h]
      omega
    · rw [if_neg h, digsToNat_concat, ih (n / 10) (by omega),
        digitChar_toNat (n % 10) (by omega)]
      omega

theorem takeWhile_append_stop (p : Char → Bool) (a : List Char)
    (ha : ∀ c ∈ a, p c = true) (r : Char) (hr : p r = false) (t : List Char) :
    (a ++ r :: t).takeWhile p = a ∧ (a ++ r :: t).dropWhile p = r :: t := by
  induction a with
  | nil =>
    simp only [List.nil_append, List.takeWhile_cons, List.dropWhile_cons, hr,
      Bool.false_eq_true, if_false]
    exact ⟨trivial, trivial⟩
  | cons x xs ih =>
    have hx : p x = true := ha x (List.mem_cons_self x xs)
    have := ih (fun c hc => ha c (List.mem_cons_of_mem x hc))
    simp only [List.cons_append, List.takeWhile_cons, List.dropWhile_cons, hx,
      if_true, this.1, this.2]
    exact ⟨trivial, trivial⟩

theorem prefMatch_self_append (p t : List Char) :
    prefMatch p (p ++ t) = true := by
  induction p with
  | nil => rfl
  | cons x xs ih => simp [prefMatch, ih]

theorem strstrDrop_of_pref (pat s : List Char) (h : prefMatch pat s = true) :
    strstrDrop pat s = some s := by
  rw [strstrDrop.eq_def, if_pos h]

theorem strstrDrop_append_right (p0 : Char) (ps xs ys : List Char)
    (hx : ∀ c ∈ xs, c ≠ p0) :
    strstrDrop (p0 :: ps) (xs ++ ys) = strstrDrop (p0 :: ps) ys := by
  induction xs with
  | nil => rfl
  | cons x t ih =>
    have hxp : (p0 == x) = false :=
      beq_eq_false_iff_ne.mpr (Ne.symm (hx x (List.mem_cons_self x t)))
    rw [List.cons_append, strstrDrop.eq_def, if_neg (by simp [prefMatch, hxp])]
    exact ih (fun c hc => hx c (List.mem_cons_of_mem x hc))

theorem parseDigits_digits_run (n : Nat) (t : List Char) :
    parseDigits (natDigs n ++ '\n' :: t) = some n := by
  have h := takeWhile_append_stop Char.isDigit (natDigs n)
    (fun c hc => (mem_digitChars_props c (natDigs_mem n c hc)).1) '\n' rfl t
  rw [parseDigits, h.1, if_neg (by simp [List.isEmpty_iff, natDigs_ne_nil n]),
    digsToNat_natDigs]

theorem parseIntFrom_intRepr (i : Int) (t : List Char) :
    parseIntFrom (intRepr i ++ '\n' :: t) = some i := by
  by_cases hi : i < 0
  · rw [intRepr, if_pos hi, List.cons_append]
    have hdw : ('-' :: (natDigs i.natAbs ++ '\n' :: t)).dropWhile isWS =
        '-' :: (natDigs i.natAbs ++ '\n' :: t) := rfl
    simp only [parseIntFrom, hdw, eq_self_iff_true, if_true,
      parseDigits_digits_run, Option.map_some']
    congr 1
    omega
  · rw [intRepr, if_neg hi]
    obtain ⟨d, ds, hds⟩ := List.exists_cons_of_ne_nil (natDigs_ne_nil i.toNat)
    have hdmem : d ∈ digitChars :=
      natDigs_mem i.toNat d (by rw [hds]; exact List.mem_cons_self d ds)
    have hprops := mem_digitChars_props d hdmem
    rw [hds, List.cons_append]
    have hdw : (d :: (ds ++ '\n' :: t)).dropWhile isWS =
        d :: (ds ++ '\n' :: t) := by
      rw [List.dropWhile_cons, hprops.2.1]
      simp
    simp only [parseIntFrom, hdw]
    rw [if_neg hprops.2.2.2.1, if_neg hprops.2.2.2.2, ← List.cons_append,
      ← hds, parseDigits_digits_run]
    simp only [Option.map_some']
    congr 1
    omega

theorem intRepr_ne_M (i : Int) : ∀ c ∈ intRepr i, c ≠ 'M' := by
  intro c hc
  rw [intRepr] at hc
  by_cases hi : i < 0
  · rw [if_pos hi] at hc
    rcases List.mem_cons.mp hc with hc | hc
    · rw [hc]
      decide
    · exact (mem_digitChars_props c (natDigs_mem _ c hc)).2.2.1
  · rw [if_neg hi] at hc
    exact (mem_digitChars_props c (natDigs_mem _ c hc)).2.2.1

/-- C9: `c2.c`'s config decoding returns the parsed `INTERVAL` and
`MODE` values when both keys are present (stated over well-formed
newline-separated payloads: any interval and any nonempty
whitespace-free mode token), and for a payload missing the `INTERVAL`
key or the `MODE` key it falls back to the defaults `intervalMs = 20`
and `mode = "interval"` respectively. -/
theorem c2_decode_config_correct (i : Int) (mode s : List Char)
    (hm1 : mode ≠ []) (hm2 : ∀ c ∈ mode, isWS c = false) :
    c2_decode_config (mkConfig i mode) = (i, mode) ∧
    (strstrDrop intervalKey s = none → (c2_decode_config s).1 = 20) ∧
    (strstrDrop modeKey s = none →
      (c2_decode_config s).2 = "interval".toList) := by
  refine ⟨?_, fun h => by simp only [c2_decode_config, h],
    fun h => by simp only [c2_decode_config, h]⟩
  have hsplitI : mkConfig i mode =
      intervalKey ++ (intRepr i ++ '\n' :: (modeKey ++ mode ++ ['\n'])) := by
    rw [mkConfig, List.append_assoc]
  have hsplitM : mkConfig i mode =
      (intervalKey ++ intRepr i ++ ['\n']) ++ (modeKey ++ mode ++ ['\n'])
      := by
    rw [mkConfig]
    simp only [List.append_assoc, List.singleton_append, List.cons_append,
      List.nil_append]
  have hIpref : strstrDrop intervalKey (mkConfig i mode) =
      some (mkConfig i mode) := by
    apply strstrDrop_of_pref
    rw [hsplitI]
    exact prefMatch_self_append _ _
  have hxs : ∀ c ∈ intervalKey ++ intRepr i ++ ['\n'], c ≠ 'M' := by
    intro c hc
    rcases List.mem_append.mp hc with hc | hc
    · rcases List.mem_append.mp hc with hc | hc
      · exact (show ∀ x ∈ intervalKey, x ≠ 'M' by decide) c hc
      · exact intRepr_ne_M i c hc
    · simp only [List.mem_singleton] at hc
      rw [hc]
      decide
  have hMfind : strstrDrop modeKey (mkConfig i mode) =
      some (modeKey ++ mode ++ ['\n']) := by
    rw [hsplitM, show modeKey = 'M' :: "ODE:".toList from rfl,
      strstrDrop_append_right 'M' _ _ _ hxs]
    apply strstrDrop_of_pref
    exact prefMatch_self_append _ _
  have hIdrop : (mkConfig i mode).drop intervalKey.length =
      intRepr i ++ '\n' :: (modeKey ++ mode ++ ['\n']) := by
    rw [hsplitI, List.drop_left]
  have hMdrop : (modeKey ++ mode ++ ['\n']).drop modeKey.length =
      mode ++ ['\n'] := by
    rw [List.append_assoc, List.drop_left]
  obtain ⟨m0, ms, hmode⟩ := List.exists_cons_of_ne_nil hm1
  have hm0 : isWS m0 = false := hm2 m0 (by rw [hmode]; exact List.mem_cons_self m0 ms)
  have hMdw : (mode ++ ['\n']).dropWhile isWS = mode ++ ['\n'] := by
    rw [hmode, List.cons_append, List.dropWhile_cons, hm0]
    simp
  have hMtok := takeWhile_append_stop (fun c => !(isWS c)) mode
    (fun c hc => by simp [hm2 c hc]) '\n' rfl []
  simp only [c2_decode_config, hIpref, hMfind, hIdrop, hMdrop, hMdw,
    parseIntFrom_intRepr]
  rw [show mode ++ ['\n'] = mode ++ '\n' :: [] from rfl, hMtok.1,
    if_neg (by simp [List.isEmpty_iff, hm1])]

theorem c2_decode_config_correct_witness :
    c2_decode_config (mkConfig 20 "interval".toList) =
      (20, "interval".toList) ∧
    (c2_decode_config []).1 = 20 ∧
    (c2_decode_config []).2 = "interval".toList := by
  obtain ⟨h1, h2, h3⟩ := c2_decode_config_correct 20 "interval".toList []
    (by decide) (by decide)
  exact ⟨h1, h2 (by decide), h3 (by decide)⟩

end LoadCell
